import Mathlib

/-!
Verification of the `djot-log` core (`src/lib.rs`).

The embedding models the interval builder `parse_log`, the interval set
`Logs` with its operations `sorted_logs`, `total_by_day` and
`accumulated_vs_target`, and the category-set type `Kinds` with its
`Display` rendering.

Modelling conventions:
* a Rust `String` is its sequence of characters (`List Char`);
* `chrono` naive datetimes are a day number plus seconds-of-day, both
  integers; subtraction yields a signed duration in seconds;
* a `HashSet` is a duplicate-free list whose order stands for the
  (unspecified) iteration order of the hash table; every order-dependent
  observation is either proved order-independent or exhibited as
  order-dependent where the specification claims otherwise;
* a `BTreeMap` is an association list sorted strictly by key;
* `FrozenSet<Vec<String>>` is a `Finset` of paths, so `Kinds` equality is
  order-independent by construction, as in the source.
-/

/-- A Rust `String`, viewed as its sequence of characters. -/
abbrev Str := List Char

/-- A category path: `KindHeader.path : Vec<String>` (lib.rs line 26). -/
abbrev KPath := List Str

/-- `chrono::naive::NaiveDateTime`: a calendar day number plus a
time-of-day in seconds. -/
structure NaiveDateTime where
  date : Int
  time : Int
deriving DecidableEq, Repr

/-- `end - start` on naive datetimes: the signed duration in seconds
(`chrono::Duration` at second precision). -/
def dtSub (a b : NaiveDateTime) : Int :=
  (a.date - b.date) * 86400 + (a.time - b.time)

/-- lib.rs `LogNode` (lines 7-12): a classified heading event.  The
payloads of `DayHeader`, `TimeHeader` and `KindHeader` are inlined. -/
inductive LogNode where
  | dayHeader (date : Int)
  | timeHeader (time : Int)
  | kindHeader (path : KPath)
deriving DecidableEq, Repr

/-- `HashSet::insert` on a set modelled as a duplicate-free list:
adding an element already present is a no-op. -/
def hsInsert {α : Type} [DecidableEq α] (x : α) (s : List α) : List α :=
  if x ∈ s then s else s ++ [x]

/-- lib.rs `Kinds` (lines 197-200): a frozen set of category paths. -/
structure Kinds where
  paths : Finset KPath
deriving DecidableEq

/-- lib.rs `Kinds::new` (lines 202-208): freeze the accumulated
`HashSet<Vec<String>>` (modelled as a list with deduplicating insert). -/
def Kinds.new (l : List KPath) : Kinds :=
  ⟨l.toFinset⟩

/-- lib.rs `Log` (lines 190-195): one emitted interval. -/
structure Log where
  start : NaiveDateTime
  end_ : NaiveDateTime
  kinds : Kinds
deriving DecidableEq

/-- `l.end - l.start`: the duration of an interval, in seconds. -/
def Log.duration (l : Log) : Int :=
  dtSub l.end_ l.start

/-- The two error messages pushed by `parse_log` (lib.rs lines 304 and
325), tagged with the offending event's payload. -/
inductive ParseError where
  | orphanTime (time : Int)
  | orphanKind (path : KPath)
deriving DecidableEq, Repr

/-- The local mutable state of `parse_log` (lib.rs lines 288-292). -/
structure ParseState where
  current_day : Option Int
  start_time : Option NaiveDateTime
  errors : List ParseError
  kinds : List KPath
  logs : List Log
deriving DecidableEq

/-- The state at the top of `parse_log`'s loop. -/
def initState : ParseState :=
  ⟨none, none, [], [], []⟩

/-- One iteration of the `for n in parse_log_nodes(..)` loop of
`parse_log` (lib.rs lines 293-329). -/
def step (s : ParseState) (n : LogNode) : ParseState :=
  match n with
  | .dayHeader date => { s with current_day := some date }
  | .timeHeader time =>
    match s.start_time with
    | none =>
      match s.current_day with
      | some d => { s with start_time := some ⟨d, time⟩ }
      | none => { s with errors := s.errors ++ [.orphanTime time] }
    | some start_time_ =>
      let e : NaiveDateTime := ⟨s.current_day.getD 0, time⟩
      let s' :=
        if s.kinds ≠ [] then
          { s with
            logs := hsInsert ⟨start_time_, e, Kinds.new s.kinds⟩ s.logs,
            kinds := [] }
        else s
      { s' with start_time := some e }
  | .kindHeader path =>
    match s.start_time with
    | some _ => { s with kinds := hsInsert path s.kinds }
    | none => { s with errors := s.errors ++ [.orphanKind path] }

/-- The state after the whole event loop of `parse_log`. -/
def runParse (ns : List LogNode) : ParseState :=
  ns.foldl step initState

/-- lib.rs `Logs` (lines 224-226): the deduplicated interval set; the
list order stands for the hash-set iteration order. -/
structure Logs where
  logs : List Log
deriving DecidableEq

/-- lib.rs `parse_log` (lines 287-331), over an already-classified event
sequence: returns the interval set and the collected errors. -/
def parse_log (ns : List LogNode) : Logs × List ParseError :=
  ((⟨(runParse ns).logs⟩ : Logs), (runParse ns).errors)

/-- `chrono` ordering on naive datetimes: lexicographic on (date, time). -/
def dtLe (a b : NaiveDateTime) : Prop :=
  a.date < b.date ∨ (a.date = b.date ∧ a.time ≤ b.time)

instance (a b : NaiveDateTime) : Decidable (dtLe a b) := by
  unfold dtLe; infer_instance

/-- The comparison used by `sort_by_key(|l| l.start)` (lib.rs line 231). -/
def startLe (a b : Log) : Prop :=
  dtLe a.start b.start

instance (a b : Log) : Decidable (startLe a b) := by
  unfold startLe; infer_instance

/-- lib.rs `Logs::sorted_logs` (lines 229-233): collect the set's
intervals (in iteration order) and stable-sort them by `start`. -/
def sorted_logs (L : Logs) : List Log :=
  List.insertionSort startLe L.logs

/-- `BTreeMap::insert` on a map modelled as an association list sorted
strictly by key: replaces the value of an existing key. -/
def btreeInsert (k v : Int) : List (Int × Int) → List (Int × Int)
  | [] => [(k, v)]
  | (k', v') :: rest =>
    if k < k' then (k, v) :: (k', v') :: rest
    else if k = k' then (k, v) :: rest
    else (k', v') :: btreeInsert k v rest

/-- `BTreeMap::get` on the association-list model. -/
def btreeGet (k : Int) : List (Int × Int) → Option Int
  | [] => none
  | (k', v') :: rest => if k = k' then some v' else btreeGet k rest

/-- The body of the `for_each` in `Logs::total_by_day` (lib.rs lines
246-250): add the interval's duration to its start day's entry. -/
def tbdStep (m : List (Int × Int)) (l : Log) : List (Int × Int) :=
  btreeInsert l.start.date ((btreeGet l.start.date m).getD 0 + l.duration) m

/-- lib.rs `Logs::total_by_day` (lines 244-252): per-day total duration,
keyed and iterated by ascending date. -/
def total_by_day (L : Logs) : List (Int × Int) :=
  L.logs.foldl tbdStep []

/-- The `scan` of `Logs::accumulated_vs_target` (lib.rs lines 258-269),
with explicit `running_total` and `running_target` accumulators. -/
def avtGo (target : Int) (running_total running_target : Int) :
    List (Int × Int) → List (Int × Int × Int)
  | [] => []
  | (date, total) :: rest =>
    (date, total, (running_total + total) - (running_target + target)) ::
      avtGo target (running_total + total) (running_target + target) rest

/-- lib.rs `Logs::accumulated_vs_target` (lines 254-270). -/
def accumulated_vs_target (L : Logs) (target : Int) : List (Int × Int × Int) :=
  avtGo target 0 0 (total_by_day L)

/-- The literal separator `" / "` of category-path segments. -/
def ssSep : Str := [' ', '/', ' ']

/-- The literal separator `" // "` between rendered category labels. -/
def dsSep : Str := [' ', '/', '/', ' ']

/-- `p.join(" / ")` (lib.rs line 212): render one category path. -/
def joinSS (p : KPath) : Str :=
  List.intercalate ssSep p

/-- Rust `str::split(" / ")` (lib.rs line 112, `to_kind_header`):
leftmost, non-overlapping splitting on the three-character separator. -/
def splitSS : Str → List Str
  | ' ' :: '/' :: ' ' :: rest => [] :: splitSS rest
  | c :: rest => consFst c (splitSS rest)
  | [] => [[]]
where
  /-- Prepend a character to the first piece of a split result. -/
  consFst (c : Char) : List Str → List Str
    | [] => [[c]]
    | seg :: segs => (c :: seg) :: segs

/-- Modelled from the spec: re-parsing a rendered category portion starts
by "splitting on `\" // \"` into labels" (spec section 8); no function in
`src/` performs this split, so it follows the spec's words: leftmost,
non-overlapping splitting on the four-character separator `" // "`. -/
def splitDS : Str → List Str
  | ' ' :: '/' :: '/' :: ' ' :: rest => [] :: splitDS rest
  | c :: rest => splitSS.consFst c (splitDS rest)
  | [] => [[]]

/-- Whether the string begins with the separator `" // "`. -/
def dsHead (l : Str) : Bool :=
  decide (l.take 4 = dsSep)

/-- Whether the string contains an occurrence of `" // "`. -/
def hasDS : Str → Bool
  | ' ' :: '/' :: '/' :: ' ' :: _ => true
  | _ :: rest => hasDS rest
  | [] => false

/-- A rendered label is parse-clean when scanning it followed by the
first three characters of `" // "` finds no occurrence of `" // "`: no
occurrence lies inside the label, and none starts inside the label and
runs into a following separator. -/
def labelOk (l : Str) : Bool :=
  !hasDS (l ++ [' ', '/', '/'])

/-- Sort a multiset of strings into the canonical ascending list; the
result does not depend on the representative order, so this models
sorting the labels collected from the frozen set (lib.rs line 213). -/
def sortLabels (m : Multiset Str) : List Str :=
  Quot.liftOn m (fun l => List.insertionSort (· ≤ ·) l)
    (fun a b h =>
      List.eq_of_perm_of_sorted
        ((List.perm_insertionSort _ a).trans
          (h.trans (List.perm_insertionSort _ b).symm))
        (List.sorted_insertionSort _ a) (List.sorted_insertionSort _ b))

/-- lib.rs `impl Display for Kinds` (lines 210-216): render each path
with `" / "`, sort the labels, and join them with `" // "`. -/
def Kinds.fmt (k : Kinds) : Str :=
  List.intercalate dsSep (sortLabels (k.paths.val.map joinSS))

/-- Modelled from the spec: the full re-parsing direction of the
round-trip property (spec section 8) — "splitting on `\" // \"` into
labels and each label on `\" / \"` into segments", collected as a set of
paths; no function in `src/` performs this direction. -/
def reparseKinds (s : Str) : Finset KPath :=
  ((splitDS s).map splitSS).toFinset

/-- The date payload of a `DayHeader` event, if any. -/
def dayOf : LogNode → Option Int
  | .dayHeader d => some d
  | _ => none

/-- The date of the most recent `DayHeader` of the sequence, if any. -/
def lastDayDate (ns : List LogNode) : Option Int :=
  (ns.filterMap dayOf).getLast?

/-- The automaton of the no-emit-without-category property: state `none`
means no `TimeHeader` has been seen yet; state `some b` means a
`TimeHeader` has been seen and `b` records whether a `KindHeader`
occurred since the most recent one.  The result is `true` exactly when
every pair of consecutive `TimeHeader`s has no intervening `KindHeader`. -/
def noKindsBetweenTimes : Option Bool → List LogNode → Bool
  | st, .dayHeader _ :: rest => noKindsBetweenTimes st rest
  | none, .kindHeader _ :: rest => noKindsBetweenTimes none rest
  | some _, .kindHeader _ :: rest => noKindsBetweenTimes (some true) rest
  | none, .timeHeader _ :: rest => noKindsBetweenTimes (some false) rest
  | some b, .timeHeader _ :: rest => !b && noKindsBetweenTimes (some false) rest
  | _, [] => true

/-- Strict ascending ordering of the keys of an association list. -/
def keysSorted (m : List (Int × Int)) : Prop :=
  m.Pairwise (fun a b => a.1 < b.1)

/-- The summed duration of the intervals of `ls` starting on day `d`. -/
def sumDur (ls : List Log) (d : Int) : Int :=
  ((ls.filter (fun l => l.start.date = d)).map Log.duration).sum

/-- Clear the error accumulator of a parse state. -/
def clearErr (s : ParseState) : ParseState :=
  { s with errors := [] }

/-! ### Basic lemmas about the builder's single step -/

theorem mem_hsInsert {α : Type} [DecidableEq α] {x y : α} {s : List α} :
    x ∈ hsInsert y s ↔ x = y ∨ x ∈ s := by
  unfold hsInsert
  by_cases h : y ∈ s
  · simp only [if_pos h]
    exact ⟨fun hx => Or.inr hx, fun hx => hx.elim (fun e => e ▸ h) id⟩
  · simp [if_neg h, List.mem_append, or_comm]

theorem step_day (s : ParseState) (d : Int) :
    step s (.dayHeader d) = { s with current_day := some d } := rfl

theorem step_time_orphan (s : ParseState) (t : Int)
    (h1 : s.start_time = none) (h2 : s.current_day = none) :
    step s (.timeHeader t) = { s with errors := s.errors ++ [.orphanTime t] } := by
  simp [step, h1, h2]

theorem step_time_start (s : ParseState) (t d : Int)
    (h1 : s.start_time = none) (h2 : s.current_day = some d) :
    step s (.timeHeader t) = { s with start_time := some ⟨d, t⟩ } := by
  simp [step, h1, h2]

theorem step_time_emit (s : ParseState) (t : Int) (st0 : NaiveDateTime)
    (h1 : s.start_time = some st0) (h2 : s.kinds ≠ []) :
    step s (.timeHeader t) =
      { s with
        logs := hsInsert ⟨st0, ⟨s.current_day.getD 0, t⟩, Kinds.new s.kinds⟩ s.logs,
        kinds := [],
        start_time := some ⟨s.current_day.getD 0, t⟩ } := by
  simp [step, h1, h2]

theorem step_time_skip (s : ParseState) (t : Int) (st0 : NaiveDateTime)
    (h1 : s.start_time = some st0) (h2 : s.kinds = []) :
    step s (.timeHeader t) = { s with start_time := some ⟨s.current_day.getD 0, t⟩ } := by
  simp [step, h1, h2]

theorem step_kind_add (s : ParseState) (p : KPath) (x : NaiveDateTime)
    (h : s.start_time = some x) :
    step s (.kindHeader p) = { s with kinds := hsInsert p s.kinds } := by
  simp [step, h]

theorem step_kind_orphan (s : ParseState) (p : KPath)
    (h : s.start_time = none) :
    step s (.kindHeader p) = { s with errors := s.errors ++ [.orphanKind p] } := by
  simp [step, h]

/-! ### The open-interval/day invariant (claim C10) -/

/-- If an interval is open then a day is set. -/
def dayInv (s : ParseState) : Prop :=
  s.start_time.isSome → s.current_day.isSome

theorem dayInv_step {s : ParseState} (n : LogNode) (h : dayInv s) :
    dayInv (step s n) := by
  cases n with
  | dayHeader d => intro _; simp [step_day]
  | timeHeader t =>
    rcases h1 : s.start_time with _ | st0
    · rcases h2 : s.current_day with _ | d
      · rw [step_time_orphan s t h1 h2]
        intro hs
        simp only [ParseState.mk.injEq] at *
        exact h (by simp_all [dayInv, h1])
      · rw [step_time_start s t d h1 h2]
        intro _
        simp [h2]
    · have hcd : s.current_day.isSome := h (by simp [h1])
      by_cases h2 : s.kinds = []
      · rw [step_time_skip s t st0 h1 h2]; intro _; exact hcd
      · rw [step_time_emit s t st0 h1 h2]; intro _; exact hcd
  | kindHeader p =>
    rcases h1 : s.start_time with _ | x
    · rw [step_kind_orphan s p h1]
      intro hs
      exact h (by simp_all [h1])
    · rw [step_kind_add s p x h1]
      intro _
      exact h (by simp [h1])

theorem dayInv_foldl (ns : List LogNode) :
    ∀ s : ParseState, dayInv s → dayInv (List.foldl step s ns) := by
  induction ns with
  | nil => intro s h; exact h
  | cons n ns ih => intro s h; exact ih (step s n) (dayInv_step n h)

/-- Claim C10: at every point of `parse_log`'s loop — i.e. after any
prefix of any event sequence — an open interval (`start_time` set)
implies `current_day` is set, so the `current_day.unwrap()` executed
when a `TimeHeader` closes an open interval (lib.rs line 308) cannot
panic on any input. -/
theorem claim_C10 (ns : List LogNode) :
    (runParse ns).start_time.isSome → (runParse ns).current_day.isSome := by
  exact dayInv_foldl ns initState (by intro h; simp [initState] at h)

/-- Witness for C10 at the sequence `[DayHeader 0, TimeHeader 540]`,
whose final state has an open interval. -/
theorem claim_C10_witness :
    (runParse [LogNode.dayHeader 0, LogNode.timeHeader 540]).start_time.isSome = true ∧
    (runParse [LogNode.dayHeader 0, LogNode.timeHeader 540]).current_day.isSome = true :=
  ⟨by decide, claim_C10 [LogNode.dayHeader 0, LogNode.timeHeader 540] (by decide)⟩

/-! ### Interval identity and deduplication (claim C7) -/

/-- Claim C7: interval identity is value-based — two `Log` records are
equal exactly when their starts, ends and category sets agree; the
category set is order-independent (building `Kinds` from any
permutation of the same paths gives the same value); and inserting the
same interval twice into an interval set starting from the empty one
yields a set of size 1. -/
theorem claim_C7 :
    (∀ a b : Log, a = b ↔ a.start = b.start ∧ a.end_ = b.end_ ∧ a.kinds = b.kinds) ∧
    (∀ k1 k2 : List KPath, k1.Perm k2 → Kinds.new k1 = Kinds.new k2) ∧
    (∀ l : Log, (hsInsert l (hsInsert l ([] : List Log))).length = 1) := by
  refine ⟨?_, ?_, ?_⟩
  · intro a b
    cases a; cases b; simp
  · intro k1 k2 h
    unfold Kinds.new
    congr 1
    exact Finset.ext fun p => by
      simp only [List.mem_toFinset]
      exact h.mem_iff
  · intro l
    simp [hsInsert]

/-- Witness for C7's permutation hypothesis at a concrete pair of
path lists that are permutations of each other. -/
theorem claim_C7_witness :
    Kinds.new [[['a']], [['b']]] = Kinds.new [[['b']], [['a']]] :=
  claim_C7.2.1 [[['a']], [['b']]] [[['b']], [['a']]]
    (List.Perm.swap _ _ _)

/-! ### Errors are append-only and do not influence the rest of the state -/

theorem step_erase_errors (s : ParseState) (n : LogNode) :
    step s n =
      { step (clearErr s) n with
        errors := s.errors ++ (step (clearErr s) n).errors } := by
  obtain ⟨cd, st, er, k, lg⟩ := s
  cases n with
  | dayHeader d => simp [step, clearErr]
  | timeHeader t =>
    rcases st with _ | st0
    · rcases cd with _ | d <;> simp [step, clearErr]
    · by_cases hk : k = [] <;> simp [step, clearErr, hk]
  | kindHeader p =>
    rcases st with _ | st0 <;> simp [step, clearErr]

theorem foldl_erase_errors (ns : List LogNode) :
    ∀ s : ParseState,
      List.foldl step s ns =
        { List.foldl step (clearErr s) ns with
          errors := s.errors ++ (List.foldl step (clearErr s) ns).errors } := by
  induction ns with
  | nil => intro s; obtain ⟨cd, st, er, k, lg⟩ := s; simp [clearErr]
  | cons n ns ih =>
    intro s
    have hu : clearErr (step s n) = clearErr (step (clearErr s) n) := by
      rw [step_erase_errors s n]; rfl
    have he : (step s n).errors = s.errors ++ (step (clearErr s) n).errors := by
      rw [step_erase_errors s n]
    show List.foldl step (step s n) ns = _
    rw [ih (step s n), hu, he]
    show _ =
      { List.foldl step (step (clearErr s) n) ns with
        errors := s.errors ++ (List.foldl step (step (clearErr s) n) ns).errors }
    rw [ih (step (clearErr s) n)]
    simp [List.append_assoc]

/-! ### Error totality (claim C2) -/

theorem parse_log_cons_kind (p : KPath) (rest : List LogNode) :
    runParse (LogNode.kindHeader p :: rest) =
      { runParse rest with
        errors := ParseError.orphanKind p :: (runParse rest).errors } := by
  have h0 :=
    foldl_erase_errors rest
      (⟨none, none, [ParseError.orphanKind p], [], []⟩ : ParseState)
  exact h0

/-- Claim C2: the builder is total and collects errors instead of
aborting (it is a Lean function, hence defined on every finite event
sequence): the empty sequence yields empty intervals and empty errors;
the one-event sequence holding a single `KindHeader` yields exactly one
error and no intervals; a `TimeHeader` with no day set (and hence no
open interval, by `claim_C10`'s invariant) appends exactly one error
and changes nothing else; a `KindHeader` with no open interval appends
exactly one error and changes nothing else; and a sequence starting
with a `KindHeader` yields exactly the orphan-category error followed
by the errors of the remaining sequence, with the same intervals. -/
theorem claim_C2 :
    (parse_log [] = (⟨[]⟩, [])) ∧
    (∀ p : KPath,
      parse_log [LogNode.kindHeader p] = (⟨[]⟩, [ParseError.orphanKind p])) ∧
    (∀ (s : ParseState) (t : Int), s.current_day = none → s.start_time = none →
      step s (LogNode.timeHeader t) =
        { s with errors := s.errors ++ [ParseError.orphanTime t] }) ∧
    (∀ (s : ParseState) (p : KPath), s.start_time = none →
      step s (LogNode.kindHeader p) =
        { s with errors := s.errors ++ [ParseError.orphanKind p] }) ∧
    (∀ (p : KPath) (rest : List LogNode),
      (parse_log (LogNode.kindHeader p :: rest)).1 = (parse_log rest).1 ∧
      (parse_log (LogNode.kindHeader p :: rest)).2 =
        ParseError.orphanKind p :: (parse_log rest).2) := by
  refine ⟨rfl, fun p => rfl, ?_, ?_, ?_⟩
  · intro s t h1 h2
    exact step_time_orphan s t h2 h1
  · intro s p h
    exact step_kind_orphan s p h
  · intro p rest
    constructor
    · show (⟨(runParse (LogNode.kindHeader p :: rest)).logs⟩ : Logs) = _
      rw [parse_log_cons_kind]
      rfl
    · show (runParse (LogNode.kindHeader p :: rest)).errors = _
      rw [parse_log_cons_kind]
      rfl

/-- Witness for C2's hypotheses, at the one-kind sequence and at
concrete states with no day / no open interval. -/
theorem claim_C2_witness :
    step ⟨none, none, [], [], []⟩ (LogNode.timeHeader 540) =
      ⟨none, none, [ParseError.orphanTime 540], [], []⟩ ∧
    step ⟨some 3, none, [], [], []⟩ (LogNode.kindHeader [['a']]) =
      ⟨some 3, none, [ParseError.orphanKind [['a']]], [], []⟩ := by
  constructor
  · rw [claim_C2.2.2.1 ⟨none, none, [], [], []⟩ 540 rfl rfl]
    rfl
  · rw [claim_C2.2.2.2.1 ⟨some 3, none, [], [], []⟩ [['a']] rfl]
    rfl

/-! ### Day tracking (claim C3) -/

theorem step_current_day_time (s : ParseState) (t : Int) :
    (step s (LogNode.timeHeader t)).current_day = s.current_day := by
  obtain ⟨cd, st, er, k, lg⟩ := s
  rcases st with _ | st0
  · rcases cd with _ | d <;> simp [step]
  · by_cases hk : k = [] <;> simp [step, hk]

theorem step_current_day_kind (s : ParseState) (p : KPath) :
    (step s (LogNode.kindHeader p)).current_day = s.current_day := by
  obtain ⟨cd, st, er, k, lg⟩ := s
  rcases st with _ | st0 <;> simp [step]

theorem getLast?_cons_or {α : Type} (d : α) (l : List α) :
    (d :: l).getLast? = l.getLast?.or (some d) := by
  induction l generalizing d with
  | nil => rfl
  | cons x l' ih =>
    rw [List.getLast?_cons_cons, ih x]
    cases hl : l'.getLast? <;> rfl

theorem current_day_foldl (ns : List LogNode) :
    ∀ s : ParseState,
      (List.foldl step s ns).current_day =
        (lastDayDate ns).or s.current_day := by
  induction ns with
  | nil => intro s; simp [lastDayDate]
  | cons n ns ih =>
    intro s
    show (List.foldl step (step s n) ns).current_day = _
    rw [ih (step s n)]
    cases n with
    | dayHeader d =>
      rw [step_day]
      show _ = (lastDayDate (LogNode.dayHeader d :: ns)).or s.current_day
      unfold lastDayDate
      rw [show (LogNode.dayHeader d :: ns).filterMap dayOf =
        d :: ns.filterMap dayOf by simp [dayOf]]
      rw [getLast?_cons_or]
      cases (ns.filterMap dayOf).getLast? <;> rfl
    | timeHeader t =>
      rw [step_current_day_time]
      have : lastDayDate (LogNode.timeHeader t :: ns) = lastDayDate ns := by
        simp [lastDayDate, dayOf]
      rw [this]
    | kindHeader p =>
      rw [step_current_day_kind]
      have : lastDayDate (LogNode.kindHeader p :: ns) = lastDayDate ns := by
        simp [lastDayDate, dayOf]
      rw [this]

/-- Claim C3: a `DayHeader` changes only `current_day` — it closes and
opens nothing, emits nothing and produces no error; after any event
sequence, `current_day` is the date of the most recent `DayHeader`
processed (if any); and when a `TimeHeader` closes an open interval,
the emitted interval's end carries the date of that `current_day`
(which can differ from the start's date). -/
theorem claim_C3 :
    (∀ (s : ParseState) (d : Int),
      step s (LogNode.dayHeader d) = { s with current_day := some d }) ∧
    (∀ ns : List LogNode, (runParse ns).current_day = lastDayDate ns) ∧
    (∀ (s : ParseState) (t : Int) (st0 : NaiveDateTime) (d : Int),
      s.start_time = some st0 → s.current_day = some d → s.kinds ≠ [] →
      step s (LogNode.timeHeader t) =
        { s with
          logs := hsInsert ⟨st0, ⟨d, t⟩, Kinds.new s.kinds⟩ s.logs,
          kinds := [],
          start_time := some ⟨d, t⟩ }) := by
  refine ⟨fun s d => step_day s d, ?_, ?_⟩
  · intro ns
    have h := current_day_foldl ns initState
    show (List.foldl step initState ns).current_day = lastDayDate ns
    rw [h]
    cases lastDayDate ns <;> rfl
  · intro s t st0 d h1 h2 h3
    rw [step_time_emit s t st0 h1 h3, h2]
    rfl

/-- Witness for C3's closing-emission hypotheses at a concrete state
whose day context (day 7) differs from the open start's date (day 0). -/
theorem claim_C3_witness :
    step ⟨some 7, some ⟨0, 540⟩, [], [[['a']]], []⟩ (LogNode.timeHeader 600) =
      ⟨some 7, some ⟨7, 600⟩, [], [],
        [⟨⟨0, 540⟩, ⟨7, 600⟩, Kinds.new [[['a']]]⟩]⟩ := by
  rw [claim_C3.2.2 ⟨some 7, some ⟨0, 540⟩, [], [[['a']]], []⟩ 600 ⟨0, 540⟩ 7 rfl rfl
    (by decide)]
  rfl

/-! ### Trailing open intervals are discarded silently (claim C4) -/

theorem runParse_append_one (ns : List LogNode) (n : LogNode) :
    runParse (ns ++ [n]) = step (runParse ns) n := by
  unfold runParse
  rw [List.foldl_append]
  rfl

/-- Claim C4: the builder's output is exactly the accumulated interval
list and error list — a trailing open interval (`start_time` set,
pending categories non-empty) contributes nothing and raises no error —
and that same open interval is emitted as soon as an explicit closing
`TimeHeader` is appended, without any new error. -/
theorem claim_C4 :
    (∀ ns : List LogNode,
      parse_log ns = ((⟨(runParse ns).logs⟩ : Logs), (runParse ns).errors)) ∧
    (∀ (ns : List LogNode) (t : Int) (st0 : NaiveDateTime) (d : Int),
      (runParse ns).start_time = some st0 →
      (runParse ns).current_day = some d →
      (runParse ns).kinds ≠ [] →
      (parse_log (ns ++ [LogNode.timeHeader t])).1.logs =
        hsInsert ⟨st0, ⟨d, t⟩, Kinds.new (runParse ns).kinds⟩
          ((parse_log ns).1.logs) ∧
      (parse_log (ns ++ [LogNode.timeHeader t])).2 = (parse_log ns).2) := by
  refine ⟨fun ns => rfl, ?_⟩
  intro ns t st0 d h1 h2 h3
  have h := runParse_append_one ns (LogNode.timeHeader t)
  have hstep := step_time_emit (runParse ns) t st0 h1 h3
  rw [h2] at hstep
  constructor
  · show (runParse (ns ++ [LogNode.timeHeader t])).logs = _
    rw [h, hstep]
    rfl
  · show (runParse (ns ++ [LogNode.timeHeader t])).errors = _
    rw [h, hstep]
    rfl

/-- Witness for C4 at the sequence `[DayHeader 0, TimeHeader 540,
KindHeader ["a"]]`, which ends with an open interval carrying a pending
category, closed by appending `TimeHeader 600`. -/
theorem claim_C4_witness :
    (parse_log [LogNode.dayHeader 0, LogNode.timeHeader 540,
        LogNode.kindHeader [['a']], LogNode.timeHeader 600]).1.logs =
      hsInsert
        ⟨⟨0, 540⟩, ⟨0, 600⟩,
          Kinds.new (runParse [LogNode.dayHeader 0, LogNode.timeHeader 540,
            LogNode.kindHeader [['a']]]).kinds⟩
        ((parse_log [LogNode.dayHeader 0, LogNode.timeHeader 540,
          LogNode.kindHeader [['a']]]).1.logs) := by
  have h :=
    (claim_C4.2 [LogNode.dayHeader 0, LogNode.timeHeader 540,
      LogNode.kindHeader [['a']]] 600 ⟨0, 540⟩ 0 (by decide) (by decide)
      (by decide)).1
  exact h

/-! ### No interval without categories (claim C1) -/

theorem kindsInv_step {s : ParseState} (n : LogNode)
    (h : ∀ l ∈ s.logs, l.kinds.paths ≠ ∅) :
    ∀ l ∈ (step s n).logs, l.kinds.paths ≠ ∅ := by
  cases n with
  | dayHeader d => rw [step_day]; exact h
  | timeHeader t =>
    rcases h1 : s.start_time with _ | st0
    · rcases h2 : s.current_day with _ | d
      · rw [step_time_orphan s t h1 h2]; exact h
      · rw [step_time_start s t d h1 h2]; exact h
    · by_cases h2 : s.kinds = []
      · rw [step_time_skip s t st0 h1 h2]; exact h
      · rw [step_time_emit s t st0 h1 h2]
        intro l hl
        rcases mem_hsInsert.mp hl with rfl | hl'
        · show (Kinds.new s.kinds).paths ≠ ∅
          simpa [Kinds.new, List.toFinset_eq_empty_iff] using h2
        · exact h l hl'
  | kindHeader p =>
    rcases h1 : s.start_time with _ | x
    · rw [step_kind_orphan s p h1]; exact h
    · rw [step_kind_add s p x h1]; exact h

theorem kindsInv_foldl (ns : List LogNode) :
    ∀ s : ParseState, (∀ l ∈ s.logs, l.kinds.paths ≠ ∅) →
      ∀ l ∈ (List.foldl step s ns).logs, l.kinds.paths ≠ ∅ := by
  induction ns with
  | nil => intro s h; exact h
  | cons n ns ih => intro s h; exact ih (step s n) (kindsInv_step n h)

theorem noKinds_foldl (ns : List LogNode) :
    ∀ (st : Option Bool) (s : ParseState),
      noKindsBetweenTimes st ns = true →
      (st = none → s.start_time = none) →
      ((st = none ∨ st = some false) → s.kinds = []) →
      (List.foldl step s ns).logs = s.logs := by
  induction ns with
  | nil => intro st s _ _ _; rfl
  | cons n ns ih =>
    intro st s hcond h1 h2
    cases n with
    | dayHeader d =>
      show (List.foldl step (step s (.dayHeader d)) ns).logs = s.logs
      rw [step_day]
      rcases st with _ | b
      · exact ih none { s with current_day := some d } hcond h1 h2
      · exact ih (some b) { s with current_day := some d } hcond h1 h2
    | kindHeader p =>
      show (List.foldl step (step s (.kindHeader p)) ns).logs = s.logs
      rcases st with _ | b
      · rw [step_kind_orphan s p (h1 rfl)]
        exact ih none { s with errors := s.errors ++ [.orphanKind p] } hcond h1 h2
      · rcases hst : s.start_time with _ | x
        · rw [step_kind_orphan s p hst]
          refine ih (some true) _ hcond (fun h => by cases h) ?_
          rintro (h | h) <;> simp at h
        · rw [step_kind_add s p x hst]
          refine ih (some true) _ hcond (fun h => by cases h) ?_
          rintro (h | h) <;> simp at h
    | timeHeader t =>
      show (List.foldl step (step s (.timeHeader t)) ns).logs = s.logs
      rcases st with _ | b
      · have hst : s.start_time = none := h1 rfl
        rcases hcd : s.current_day with _ | d
        · rw [step_time_orphan s t hst hcd]
          refine ih (some false) _ hcond (fun h => by cases h) ?_
          intro _
          exact h2 (Or.inl rfl)
        · rw [step_time_start s t d hst hcd]
          refine ih (some false) _ hcond (fun h => by cases h) ?_
          intro _
          exact h2 (Or.inl rfl)
      · have hcond' : b = false ∧ noKindsBetweenTimes (some false) ns = true := by
          revert hcond
          cases b <;> simp [noKindsBetweenTimes]
        rcases hcond' with ⟨hb', hrest⟩
        subst hb'
        have hk : s.kinds = [] := h2 (Or.inr rfl)
        rcases hst : s.start_time with _ | st0
        · rcases hcd : s.current_day with _ | d
          · rw [step_time_orphan s t hst hcd]
            refine ih (some false) _ hrest (fun h => by cases h) ?_
            intro _
            exact hk
          · rw [step_time_start s t d hst hcd]
            refine ih (some false) _ hrest (fun h => by cases h) ?_
            intro _
            exact hk
        · rw [step_time_skip s t st0 hst hk]
          refine ih (some false) _ hrest (fun h => by cases h) ?_
          intro _
          exact hk

/-- Claim C1: every interval emitted by the builder has a non-empty
category set; a closing `TimeHeader` with empty pending categories
emits nothing but still advances the open start to the closing
timestamp; and an event sequence in which every pair of consecutive
`TimeHeader`s has no intervening `KindHeader` yields zero intervals. -/
theorem claim_C1 :
    (∀ (ns : List LogNode) (l : Log),
      l ∈ (parse_log ns).1.logs → l.kinds.paths ≠ ∅) ∧
    (∀ (s : ParseState) (t : Int) (st0 : NaiveDateTime),
      s.start_time = some st0 → s.kinds = [] →
      step s (LogNode.timeHeader t) =
        { s with start_time := some ⟨s.current_day.getD 0, t⟩ }) ∧
    (∀ ns : List LogNode, noKindsBetweenTimes none ns = true →
      (parse_log ns).1.logs = []) := by
  refine ⟨?_, fun s t st0 h1 h2 => step_time_skip s t st0 h1 h2, ?_⟩
  · intro ns l hl
    exact kindsInv_foldl ns initState (by intro l h; cases h) l hl
  · intro ns h
    exact noKinds_foldl ns none initState h (fun _ => rfl) (fun _ => rfl)

/-- Witness for C1 at a sequence of two consecutive `TimeHeader`s with
no intervening `KindHeader` (and a stray one before the first time),
which yields zero intervals. -/
theorem claim_C1_witness :
    (parse_log [LogNode.dayHeader 0, LogNode.kindHeader [['a']],
      LogNode.timeHeader 540, LogNode.timeHeader 780]).1.logs = [] :=
  claim_C1.2.2 [LogNode.dayHeader 0, LogNode.kindHeader [['a']],
    LogNode.timeHeader 540, LogNode.timeHeader 780] (by decide)

/-! ### Sorting the interval set (claim C8) -/

instance : IsTotal Log startLe :=
  ⟨fun a b => by unfold startLe dtLe; omega⟩

instance : IsTrans Log startLe :=
  ⟨fun a b c hab hbc => by
    unfold startLe dtLe at hab hbc ⊢
    omega⟩

/-- Counterexample to claim C8 as stated: the relative order of two
intervals with equal `start` in `sorted_logs` depends on the iteration
order of the underlying hash set, which is not a function of the set's
contents — two interval sets holding exactly the same intervals (equal
as finite sets, built by the same two insertions in a different order)
yield different `sorted_logs` outputs. -/
theorem claim_C8_counterexample :
    ((hsInsert (⟨⟨0, 540⟩, ⟨0, 600⟩, Kinds.new [[['a']]]⟩ : Log)
        (hsInsert ⟨⟨0, 540⟩, ⟨0, 660⟩, Kinds.new [[['a']]]⟩ [])).toFinset =
      (hsInsert (⟨⟨0, 540⟩, ⟨0, 660⟩, Kinds.new [[['a']]]⟩ : Log)
        (hsInsert ⟨⟨0, 540⟩, ⟨0, 600⟩, Kinds.new [[['a']]]⟩ [])).toFinset) ∧
    sorted_logs ⟨hsInsert ⟨⟨0, 540⟩, ⟨0, 600⟩, Kinds.new [[['a']]]⟩
        (hsInsert ⟨⟨0, 540⟩, ⟨0, 660⟩, Kinds.new [[['a']]]⟩ [])⟩ ≠
      sorted_logs ⟨hsInsert ⟨⟨0, 540⟩, ⟨0, 660⟩, Kinds.new [[['a']]]⟩
        (hsInsert ⟨⟨0, 540⟩, ⟨0, 600⟩, Kinds.new [[['a']]]⟩ [])⟩ := by
  constructor
  · decide
  · decide

/-- Claim C8 (amended): `sorted_logs` returns the set's intervals
ordered by `start` ascending — a permutation of the stored intervals,
sorted under `startLe` — and is a deterministic function of the
underlying iteration order; but the relative order of intervals with
equal starts follows that iteration order, which is not determined by
the set's contents (see the counterexample). -/
theorem claim_C8 (L : Logs) :
    List.Sorted startLe (sorted_logs L) ∧ (sorted_logs L).Perm L.logs :=
  ⟨List.sorted_insertionSort startLe L.logs,
    List.perm_insertionSort startLe L.logs⟩

/-! ### Per-day totals (claim C6) -/

theorem btreeGet_insert_self (k v : Int) :
    ∀ m : List (Int × Int), btreeGet k (btreeInsert k v m) = some v := by
  intro m
  induction m with
  | nil => simp [btreeInsert, btreeGet]
  | cons x rest ih =>
    obtain ⟨k', v'⟩ := x
    by_cases h1 : k < k'
    · simp [btreeInsert, h1, btreeGet]
    · by_cases h2 : k = k'
      · simp [btreeInsert, h1, h2, btreeGet]
      · simp [btreeInsert, h1, h2, btreeGet, ih]

theorem btreeGet_insert_ne (k v d : Int) (hne : d ≠ k) :
    ∀ m : List (Int × Int), btreeGet d (btreeInsert k v m) = btreeGet d m := by
  intro m
  induction m with
  | nil => simp [btreeInsert, btreeGet, hne]
  | cons x rest ih =>
    obtain ⟨k', v'⟩ := x
    by_cases h1 : k < k'
    · simp [btreeInsert, h1, btreeGet, hne]
    · by_cases h2 : k = k'
      · subst h2
        simp [btreeInsert, h1, btreeGet, hne]
      · simp [btreeInsert, h1, h2, btreeGet, ih]

theorem mem_btreeInsert (k v : Int) :
    ∀ (m : List (Int × Int)) (x : Int × Int),
      x ∈ btreeInsert k v m → x.1 = k ∨ x ∈ m := by
  intro m
  induction m with
  | nil =>
    intro x hx
    simp [btreeInsert] at hx
    subst hx
    exact Or.inl rfl
  | cons y rest ih =>
    obtain ⟨k', v'⟩ := y
    intro x hx
    by_cases h1 : k < k'
    · simp only [btreeInsert, if_pos h1, List.mem_cons] at hx
      rcases hx with rfl | hx
      · exact Or.inl rfl
      · exact Or.inr (List.mem_cons.mpr hx)
    · by_cases h2 : k = k'
      · simp only [btreeInsert, if_neg h1, if_pos h2, List.mem_cons] at hx
        rcases hx with rfl | hx
        · exact Or.inl rfl
        · exact Or.inr (List.mem_cons_of_mem _ hx)
      · simp only [btreeInsert, if_neg h1, if_neg h2, List.mem_cons] at hx
        rcases hx with rfl | hx
        · exact Or.inr (List.mem_cons_self _ _)
        · rcases ih x hx with h | h
          · exact Or.inl h
          · exact Or.inr (List.mem_cons_of_mem _ h)

theorem keysSorted_btreeInsert (k v : Int) :
    ∀ m : List (Int × Int), keysSorted m → keysSorted (btreeInsert k v m) := by
  intro m
  induction m with
  | nil => intro _; simp [btreeInsert, keysSorted]
  | cons y rest ih =>
    obtain ⟨k', v'⟩ := y
    intro h
    rw [keysSorted, List.pairwise_cons] at h
    obtain ⟨h1, h2⟩ := h
    by_cases hc1 : k < k'
    · rw [btreeInsert]
      simp only [if_pos hc1]
      rw [keysSorted, List.pairwise_cons]
      refine ⟨?_, ?_⟩
      · intro x hx
        rcases List.mem_cons.mp hx with rfl | hx
        · exact hc1
        · exact hc1.trans (h1 x hx)
      · exact List.Pairwise.cons h1 h2
    · by_cases hc2 : k = k'
      · rw [btreeInsert]
        simp only [if_neg hc1, if_pos hc2]
        rw [keysSorted, List.pairwise_cons]
        constructor
        · intro x hx
          have := h1 x hx
          omega
        · exact h2
      · rw [btreeInsert]
        simp only [if_neg hc1, if_neg hc2]
        rw [keysSorted, List.pairwise_cons]
        refine ⟨?_, ih h2⟩
        intro x hx
        rcases mem_btreeInsert k v rest x hx with h | h
        · rw [h]; omega
        · exact h1 x h

theorem sumDur_append_match (pre : List Log) (l : Log) :
    sumDur (pre ++ [l]) l.start.date = sumDur pre l.start.date + l.duration := by
  unfold sumDur
  rw [List.filter_append]
  simp

theorem sumDur_append_miss (pre : List Log) (l : Log) (d : Int)
    (hd : l.start.date ≠ d) :
    sumDur (pre ++ [l]) d = sumDur pre d := by
  unfold sumDur
  rw [List.filter_append]
  simp [hd]

theorem tbd_foldl (ls : List Log) :
    ∀ (pre : List Log) (m : List (Int × Int)),
      keysSorted m →
      (∀ d : Int, btreeGet d m =
        if (pre.filter (fun l => l.start.date = d)) = [] then none
        else some (sumDur pre d)) →
      keysSorted (List.foldl tbdStep m ls) ∧
      (∀ d : Int, btreeGet d (List.foldl tbdStep m ls) =
        if ((pre ++ ls).filter (fun l => l.start.date = d)) = [] then none
        else some (sumDur (pre ++ ls) d)) := by
  induction ls with
  | nil =>
    intro pre m h1 h2
    constructor
    · exact h1
    · intro d
      rw [List.append_nil]
      exact h2 d
  | cons l ls ih =>
    intro pre m h1 h2
    have hget : (btreeGet l.start.date m).getD 0 = sumDur pre l.start.date := by
      rw [h2 l.start.date]
      split
      · rename_i hf
        unfold sumDur
        rw [hf]
        rfl
      · rfl
    have step1 : keysSorted (tbdStep m l) :=
      keysSorted_btreeInsert _ _ m h1
    have step2 : ∀ d : Int, btreeGet d (tbdStep m l) =
        if ((pre ++ [l]).filter (fun x => x.start.date = d)) = [] then none
        else some (sumDur (pre ++ [l]) d) := by
      intro d
      by_cases hd : l.start.date = d
      · subst hd
        unfold tbdStep
        rw [btreeGet_insert_self, hget, ← sumDur_append_match pre l]
        rw [List.filter_append]
        simp
      · unfold tbdStep
        rw [btreeGet_insert_ne _ _ _ (fun h => hd h.symm), h2 d,
          sumDur_append_miss pre l d hd]
        rw [List.filter_append]
        simp [hd]
    have h := ih (pre ++ [l]) (tbdStep m l) step1 step2
    rw [List.append_assoc] at h
    simpa using h

/-- Claim C6: `total_by_day` maps each date to the summed duration of
exactly the intervals whose start date equals it; a date has an entry
exactly when some interval starts on it; and the map's iteration order
is strictly ascending by date. -/
theorem claim_C6 (L : Logs) :
    keysSorted (total_by_day L) ∧
    (∀ d : Int,
      btreeGet d (total_by_day L) =
        if (L.logs.filter (fun l => l.start.date = d)) = [] then none
        else some (sumDur L.logs d)) ∧
    (∀ d : Int,
      (btreeGet d (total_by_day L)).isSome ↔ ∃ l ∈ L.logs, l.start.date = d) := by
  have h := tbd_foldl L.logs [] [] (by simp [keysSorted]) (by intro d; rfl)
  simp only [List.nil_append] at h
  refine ⟨h.1, h.2, ?_⟩
  intro d
  rw [show total_by_day L = List.foldl tbdStep [] L.logs from rfl, h.2 d]
  split
  · rename_i hf
    simp only [Option.isSome_none, Bool.false_eq_true, false_iff]
    intro hex
    obtain ⟨l, hl, hld⟩ := hex
    have : l ∈ L.logs.filter (fun l => l.start.date = d) :=
      List.mem_filter.mpr ⟨hl, by simpa using hld⟩
    rw [hf] at this
    cases this
  · rename_i hf
    simp only [Option.isSome_some, true_iff]
    obtain ⟨l, hl⟩ := List.exists_mem_of_ne_nil _ hf
    have := List.mem_filter.mp hl
    exact ⟨l, this.1, by simpa using this.2⟩

/-! ### Running totals against the target (claim C5) -/

theorem avtGo_length (target : Int) :
    ∀ (l : List (Int × Int)) (rt rtg : Int),
      (avtGo target rt rtg l).length = l.length := by
  intro l
  induction l with
  | nil => intro rt rtg; rfl
  | cons x rest ih =>
    intro rt rtg
    obtain ⟨d, tot⟩ := x
    simp only [avtGo, List.length_cons, ih]

theorem avtGo_map_fst (target : Int) :
    ∀ (l : List (Int × Int)) (rt rtg : Int),
      (avtGo target rt rtg l).map (fun r => r.1) = l.map (fun r => r.1) := by
  intro l
  induction l with
  | nil => intro rt rtg; rfl
  | cons x rest ih =>
    intro rt rtg
    obtain ⟨d, tot⟩ := x
    simp only [avtGo, List.map_cons, ih]

theorem avtGo_getD (target : Int) :
    ∀ (l : List (Int × Int)) (rt rtg : Int) (i : Nat), i < l.length →
      (avtGo target rt rtg l).getD i (0, 0, 0) =
        ((l.getD i (0, 0)).1, (l.getD i (0, 0)).2,
          (rt + ((l.take (i + 1)).map (fun r => r.2)).sum) -
            (rtg + ((i : Int) + 1) * target)) := by
  intro l
  induction l with
  | nil => intro rt rtg i h; simp at h
  | cons x rest ih =>
    intro rt rtg i h
    obtain ⟨d, tot⟩ := x
    cases i with
    | zero =>
      show (d, tot, (rt + tot) - (rtg + target)) = _
      simp only [List.getD_cons_zero, List.take_succ_cons, List.take_zero,
        List.map_cons, List.map_nil, List.sum_cons, List.sum_nil,
        Nat.cast_zero, Prod.mk.injEq, true_and]
      ring
    | succ i =>
      have h' : i < rest.length := by simpa using h
      show (avtGo target (rt + tot) (rtg + target) rest).getD i (0, 0, 0) = _
      rw [ih (rt + tot) (rtg + target) i h']
      simp only [List.getD_cons_succ, List.take_succ_cons, List.map_cons,
        List.sum_cons, Nat.cast_succ, Prod.mk.injEq, true_and]
      ring

/-- Claim C5: the `i`-th row of `accumulated_vs_target` is the `i`-th
day's (date, day total) together with the difference between the sum of
the first `i+1` day totals and `(i+1) * target`; there is one row per
day of `total_by_day`, and rows are strictly ascending by date (a
day's surplus over the target persists in all later rows' deltas). -/
theorem claim_C5 (L : Logs) (target : Int) :
    (accumulated_vs_target L target).length = (total_by_day L).length ∧
    (accumulated_vs_target L target).Pairwise (fun a b => a.1 < b.1) ∧
    (∀ i : Nat, i < (total_by_day L).length →
      (accumulated_vs_target L target).getD i (0, 0, 0) =
        (((total_by_day L).getD i (0, 0)).1,
          ((total_by_day L).getD i (0, 0)).2,
          (((total_by_day L).take (i + 1)).map (fun r => r.2)).sum -
            ((i : Int) + 1) * target)) := by
  refine ⟨avtGo_length target (total_by_day L) 0 0, ?_, ?_⟩
  · have hs : keysSorted (total_by_day L) := (claim_C6 L).1
    rw [keysSorted] at hs
    have h1 : ((total_by_day L).map (fun r => r.1)).Pairwise (· < ·) :=
      List.pairwise_map.mpr hs
    rw [← avtGo_map_fst target (total_by_day L) 0 0] at h1
    exact List.pairwise_map.mp h1
  · intro i h
    rw [show accumulated_vs_target L target = avtGo target 0 0 (total_by_day L)
      from rfl]
    rw [avtGo_getD target (total_by_day L) 0 0 i h]
    simp only [Prod.mk.injEq, true_and]
    ring

/-- Witness for C5 at a two-day interval set (8 hours on day 0, 9 hours
on day 1) against an 8-hour daily target: deltas 0 then +1 hour. -/
theorem claim_C5_witness :
    accumulated_vs_target
        ⟨[⟨⟨0, 32400⟩, ⟨0, 61200⟩, Kinds.new [[['a']]]⟩,
          ⟨⟨1, 32400⟩, ⟨1, 64800⟩, Kinds.new [[['a']]]⟩]⟩ 28800 =
      [(0, 28800, 0), (1, 32400, 3600)] := by
  have h0 :=
    (claim_C5 ⟨[⟨⟨0, 32400⟩, ⟨0, 61200⟩, Kinds.new [[['a']]]⟩,
      ⟨⟨1, 32400⟩, ⟨1, 64800⟩, Kinds.new [[['a']]]⟩]⟩ 28800).2.2 1 (by decide)
  decide

/-! ### Splitting and joining category text (claim C9) -/

theorem consFst_ne_nil (c : Char) (l : List Str) : splitSS.consFst c l ≠ [] := by
  cases l <;> simp [splitSS.consFst]

theorem splitSS_sep (rest : Str) :
    splitSS (' ' :: '/' :: ' ' :: rest) = [] :: splitSS rest := rfl

theorem splitSS_nil : splitSS [] = [[]] := rfl

theorem splitSS_cons_ne (c : Char) (rest : Str)
    (hne : ∀ r : Str, c = ' ' → rest = '/' :: ' ' :: r → False) :
    splitSS (c :: rest) = splitSS.consFst c (splitSS rest) := by
  rw [splitSS.eq_def]
  split
  · rename_i r heq
    injection heq with e1 e2
    exact (hne r e1 e2).elim
  · rename_i c' r heq
    injection heq with e1 e2
    subst e1; subst e2
    rfl
  · rename_i heq
    exact absurd heq (by simp)

theorem splitSS_ne_nil : ∀ s : Str, splitSS s ≠ [] := by
  intro s
  induction s using splitSS.induct with
  | case1 rest ih => rw [splitSS_sep]; simp
  | case2 c rest hne ih => rw [splitSS_cons_ne c rest hne]; exact consFst_ne_nil c _
  | case3 => rw [splitSS_nil]; simp

theorem ical_single (sep a : Str) : List.intercalate sep [a] = a := by
  simp [List.intercalate]

theorem ical_cons_cons (sep a b : Str) (t : List Str) :
    List.intercalate sep (a :: b :: t) =
      a ++ sep ++ List.intercalate sep (b :: t) := by
  simp [List.intercalate, List.intersperse, List.append_assoc]

theorem joinSS_consFst (c : Char) (l : List Str) (h : l ≠ []) :
    joinSS (splitSS.consFst c l) = c :: joinSS l := by
  cases l with
  | nil => exact absurd rfl h
  | cons seg segs =>
    cases segs with
    | nil =>
      show joinSS [c :: seg] = c :: joinSS [seg]
      rw [joinSS, joinSS, ical_single, ical_single]
    | cons b t =>
      show joinSS ((c :: seg) :: b :: t) = c :: joinSS (seg :: b :: t)
      rw [joinSS, joinSS, ical_cons_cons, ical_cons_cons]
      simp

theorem joinSS_splitSS : ∀ s : Str, joinSS (splitSS s) = s := by
  intro s
  induction s using splitSS.induct with
  | case1 rest ih =>
    rw [splitSS_sep]
    obtain ⟨a, l, hsp⟩ : ∃ a l, splitSS rest = a :: l := by
      cases h : splitSS rest with
      | nil => exact absurd h (splitSS_ne_nil rest)
      | cons a l => exact ⟨a, l, rfl⟩
    rw [hsp]
    rw [show joinSS ([] :: a :: l) = [] ++ ssSep ++ joinSS (a :: l) from
      ical_cons_cons ssSep [] a l]
    rw [← hsp, ih]
    rfl
  | case2 c rest hne ih =>
    rw [splitSS_cons_ne c rest hne,
      joinSS_consFst c _ (splitSS_ne_nil rest), ih]
  | case3 => rfl

theorem splitDS_sep (rest : Str) :
    splitDS (' ' :: '/' :: '/' :: ' ' :: rest) = [] :: splitDS rest := rfl


theorem dsHead_iff (c : Char) (t : Str) :
    dsHead (c :: t) = true ↔ c = ' ' ∧ ∃ r : Str, t = '/' :: '/' :: ' ' :: r := by
  unfold dsHead dsSep
  rcases t with _ | ⟨a, _ | ⟨b, _ | ⟨d, r⟩⟩⟩ <;> simp [List.take]

theorem splitDS_cons (c : Char) (t : Str) (h : dsHead (c :: t) = false) :
    splitDS (c :: t) = splitSS.consFst c (splitDS t) := by
  rw [splitDS.eq_def]
  split
  · rename_i r heq
    injection heq with e1 e2
    subst e1; subst e2
    rw [show dsHead (' ' :: '/' :: '/' :: ' ' :: r) = true by
      rw [dsHead_iff]; exact ⟨rfl, r, rfl⟩] at h
    cases h
  · rename_i c' r heq
    injection heq with e1 e2
    subst e1; subst e2
    rfl
  · rename_i heq
    exact absurd heq (by simp)

theorem splitDS_ne_nil (s : Str) : splitDS s ≠ [] := by
  induction s using splitDS.induct with
  | case1 rest ih => rw [splitDS_sep]; simp
  | case2 c rest hne ih =>
    have hd : dsHead (c :: rest) = false := by
      by_contra hx
      rcases (dsHead_iff c rest).mp (by simpa using hx) with ⟨h1, r, h2⟩
      exact hne r h1 h2
    rw [splitDS_cons c rest hd]
    exact consFst_ne_nil c _
  | case3 => rw [show splitDS [] = [[]] from rfl]; simp

theorem hasDS_cons (c : Char) (t : Str) :
    hasDS (c :: t) = (dsHead (c :: t) || hasDS t) := by
  by_cases hd : dsHead (c :: t) = true
  · rcases (dsHead_iff c t).mp hd with ⟨h1, r, h2⟩
    subst h1; subst h2
    rw [hd]
    rfl
  · have hd' : dsHead (c :: t) = false := by simpa using hd
    rw [hd']
    rw [hasDS.eq_def]
    split
    · rename_i r heq
      injection heq with e1 e2
      subst e1; subst e2
      rw [show dsHead (' ' :: '/' :: '/' :: ' ' :: r) = true by
        rw [dsHead_iff]; exact ⟨rfl, r, rfl⟩] at hd'
      cases hd'
    · rename_i c' r heq
      injection heq with e1 e2
      subst e1; subst e2
      rfl
    · rename_i heq
      exact absurd heq (by simp)

theorem hasDS_append (l x : Str) (h : hasDS l = true) : hasDS (l ++ x) = true := by
  induction l with
  | nil => rw [show hasDS [] = false from rfl] at h; cases h
  | cons c t ih =>
    rw [hasDS_cons] at h
    have h' : dsHead (c :: t) = true ∨ hasDS t = true := by simpa using h
    rcases h' with hd | ht
    · rcases (dsHead_iff c t).mp hd with ⟨h1, h2⟩
      obtain ⟨r, hr⟩ := h2
      subst h1; subst hr
      rfl
    · show hasDS (c :: (t ++ x)) = true
      rw [hasDS_cons, ih ht]
      simp

theorem dsHead_pad (c : Char) (cs r : Str)
    (h : dsHead ((c :: cs) ++ [' ', '/', '/']) = false) :
    dsHead ((c :: cs) ++ (dsSep ++ r)) = false := by
  unfold dsHead at h ⊢
  have hkey : ∀ m : Nat, m ≤ 3 →
      (dsSep ++ r).take m = ([' ', '/', '/'] : Str).take m := by
    intro m hm
    interval_cases m <;> rfl
  have e1 := @List.take_append_eq_append_take Char (c :: cs) (dsSep ++ r) 4
  have e2 := @List.take_append_eq_append_take Char (c :: cs) [' ', '/', '/'] 4
  have hm : 4 - (c :: cs).length ≤ 3 := by simp
  have heq : ((c :: cs) ++ (dsSep ++ r)).take 4 =
      ((c :: cs) ++ [' ', '/', '/']).take 4 := by
    rw [e1, e2, hkey _ hm]
  rw [heq]
  exact h

theorem labelOk_hasDS (l : Str) (h : labelOk l = true) : hasDS l = false := by
  unfold labelOk at h
  by_contra hx
  have h1 : hasDS l = true := by simpa using hx
  have h2 := hasDS_append l [' ', '/', '/'] h1
  rw [h2] at h
  cases h

theorem splitDS_no_sep (l : Str) (h : hasDS l = false) : splitDS l = [l] := by
  induction l with
  | nil => rfl
  | cons c t ih =>
    rw [hasDS_cons] at h
    have h1 : dsHead (c :: t) = false := by
      rcases Bool.or_eq_false_iff.mp h with ⟨ha, _⟩
      exact ha
    have h2 : hasDS t = false := by
      rcases Bool.or_eq_false_iff.mp h with ⟨_, hb⟩
      exact hb
    rw [splitDS_cons c t h1, ih h2]
    rfl

theorem labelOk_tail (c : Char) (cs : Str) (h : labelOk (c :: cs) = true) :
    labelOk cs = true := by
  unfold labelOk at h ⊢
  have hh : hasDS ((c :: cs) ++ [' ', '/', '/']) = false := by simpa using h
  rw [show (c :: cs) ++ [' ', '/', '/'] = c :: (cs ++ [' ', '/', '/']) from rfl,
    hasDS_cons] at hh
  rcases Bool.or_eq_false_iff.mp hh with ⟨_, hb⟩
  rw [hb]
  rfl

theorem splitDS_append (l r : Str) (h : labelOk l = true) :
    splitDS (l ++ (dsSep ++ r)) = l :: splitDS r := by
  induction l with
  | nil => exact splitDS_sep r
  | cons c cs ih =>
    have hh : hasDS ((c :: cs) ++ [' ', '/', '/']) = false := by
      unfold labelOk at h
      simpa using h
    have hd3 : dsHead ((c :: cs) ++ [' ', '/', '/']) = false := by
      rw [show (c :: cs) ++ [' ', '/', '/'] = c :: (cs ++ [' ', '/', '/']) from rfl,
        hasDS_cons] at hh
      rcases Bool.or_eq_false_iff.mp hh with ⟨ha, _⟩
      exact ha
    have hdpad : dsHead (c :: (cs ++ (dsSep ++ r))) = false :=
      dsHead_pad c cs r hd3
    show splitDS (c :: (cs ++ (dsSep ++ r))) = (c :: cs) :: splitDS r
    rw [splitDS_cons c _ hdpad, ih (labelOk_tail c cs h)]
    rfl

theorem splitDS_intercalate :
    ∀ (ls : List Str) (a : Str), labelOk a = true → (∀ l ∈ ls, labelOk l = true) →
      splitDS (List.intercalate dsSep (a :: ls)) = a :: ls := by
  intro ls
  induction ls with
  | nil =>
    intro a ha _
    rw [ical_single]
    exact splitDS_no_sep a (labelOk_hasDS a ha)
  | cons b t ih =>
    intro a ha hls
    rw [ical_cons_cons, List.append_assoc, splitDS_append _ _ ha,
      ih b (hls b (List.mem_cons_self b t)) (fun l hl => hls l (List.mem_cons_of_mem b hl))]

/-- Claim C9 (amended): every category path produced by the source's
`" / "` split parses back from its rendered label (`splitSS (joinSS
(splitSS s)) = splitSS s`, so re-rendering one path is the identity on
emitted paths); and for any non-empty category set whose paths
round-trip individually and whose rendered labels are parse-clean
(`labelOk`: no `" // "` occurrence inside a label or spilling into the
following separator), rendering with `Kinds.fmt` and re-parsing with
`reparseKinds` recovers exactly the original set of paths. -/
theorem claim_C9 :
    (∀ s : Str, splitSS (joinSS (splitSS s)) = splitSS s) ∧
    (∀ k : Kinds, k.paths.Nonempty →
      (∀ p ∈ k.paths, splitSS (joinSS p) = p) →
      (∀ p ∈ k.paths, labelOk (joinSS p) = true) →
      reparseKinds (Kinds.fmt k) = k.paths) := by
  constructor
  · intro s
    rw [joinSS_splitSS]
  · rintro ⟨⟨m, nd⟩⟩
    revert nd
    refine Quot.inductionOn m ?_
    intro L nd hne hsplit hlab
    have hmem : ∀ p : KPath, (p ∈ Finset.mk (Quot.mk _ L) nd) ↔ p ∈ L := by
      intro p
      exact Iff.rfl
    have hfmt : Kinds.fmt ⟨Finset.mk (Quot.mk _ L) nd⟩ =
        List.intercalate dsSep (List.insertionSort (· ≤ ·) (L.map joinSS)) := rfl
    set S := List.insertionSort ((· ≤ ·) : Str → Str → Prop) (L.map joinSS) with hSdef
    have hperm : S.Perm (L.map joinSS) := List.perm_insertionSort _ _
    have hLne : L ≠ [] := by
      obtain ⟨p, hp⟩ := hne
      exact List.ne_nil_of_mem ((hmem p).mp hp)
    have hSne : S ≠ [] := by
      intro h0
      rw [h0] at hperm
      have h1 := hperm.symm.eq_nil
      rw [List.map_eq_nil_iff] at h1
      exact hLne h1
    have hSlab : ∀ l ∈ S, labelOk l = true := by
      intro l hl
      have h1 : l ∈ L.map joinSS := hperm.mem_iff.mp hl
      obtain ⟨p, hp, rfl⟩ := List.mem_map.mp h1
      exact hlab p ((hmem p).mpr hp)
    obtain ⟨a, ls, hS⟩ : ∃ a ls, S = a :: ls := by
      cases h0 : S with
      | nil => exact absurd h0 hSne
      | cons a ls => exact ⟨a, ls, rfl⟩
    have hsplitDS : splitDS (List.intercalate dsSep S) = S := by
      rw [hS]
      exact splitDS_intercalate ls a
        (hSlab a (by rw [hS]; exact List.mem_cons_self a ls))
        (fun l hl => hSlab l (by rw [hS]; exact List.mem_cons_of_mem a hl))
    have hmap : (S.map splitSS).Perm L := by
      have h1 := hperm.map splitSS
      rw [List.map_map] at h1
      have h2 : L.map (splitSS ∘ joinSS) = L := by
        have h3 : ∀ p ∈ L, (splitSS ∘ joinSS) p = id p := by
          intro p hp
          exact hsplit p ((hmem p).mpr hp)
        rw [List.map_congr_left h3, List.map_id]
      rw [h2] at h1
      exact h1
    show ((splitDS (Kinds.fmt ⟨Finset.mk (Quot.mk _ L) nd⟩)).map splitSS).toFinset = _
    rw [hfmt, hsplitDS]
    refine Finset.ext fun p => ?_
    rw [List.mem_toFinset]
    rw [hmap.mem_iff]
    exact (hmem p).symm

/-- Counterexample to claim C9 as stated: the heading text `"a // b"`
contains no `" / "`, so `to_kind_header` yields the one-segment path
`["a // b"]`; the builder emits an interval carrying exactly that
category; its rendering is the text `"a // b"`, and re-parsing that
text splits at `" // "` into the two paths `["a"]` and `["b"]`, not
the original set. -/
theorem claim_C9_counterexample :
    (parse_log [LogNode.dayHeader 0, LogNode.timeHeader 540,
        LogNode.kindHeader (splitSS "a // b".toList), LogNode.timeHeader 780]).1.logs =
      [⟨⟨0, 540⟩, ⟨0, 780⟩, Kinds.new [(["a // b".toList] : KPath)]⟩] ∧
    reparseKinds (Kinds.fmt (Kinds.new [(["a // b".toList] : KPath)])) =
      {["a".toList], ["b".toList]} ∧
    reparseKinds (Kinds.fmt (Kinds.new [(["a // b".toList] : KPath)])) ≠
      (Kinds.new [(["a // b".toList] : KPath)]).paths := by
  refine ⟨by decide, by decide, by decide⟩

/-- Witness for C9's hypotheses at the two-path category set
`{["Coding"], ["Work", "MyOrg"]}` of the repository's example log. -/
theorem claim_C9_witness :
    reparseKinds (Kinds.fmt (Kinds.new
        [(["Coding".toList] : KPath), ["Work".toList, "MyOrg".toList]])) =
      (Kinds.new [(["Coding".toList] : KPath),
        ["Work".toList, "MyOrg".toList]]).paths :=
  claim_C9.2 (Kinds.new [(["Coding".toList] : KPath),
      ["Work".toList, "MyOrg".toList]])
    (by decide) (by decide) (by decide)

/-- Witness for C6 at a one-interval set: day 0 has a 4-hour entry. -/
theorem claim_C6_witness :
    btreeGet 0 (total_by_day
        ⟨[⟨⟨0, 32400⟩, ⟨0, 46800⟩, Kinds.new [[['a']]]⟩]⟩) = some 14400 := by
  have h :=
    (claim_C6 ⟨[⟨⟨0, 32400⟩, ⟨0, 46800⟩, Kinds.new [[['a']]]⟩]⟩).2.1 0
  rw [h]
  decide

/-- Witness for C8's amended statement at a concrete two-interval set. -/
theorem claim_C8_witness :
    List.Sorted startLe (sorted_logs
        ⟨[⟨⟨1, 0⟩, ⟨1, 60⟩, Kinds.new [[['b']]]⟩,
          ⟨⟨0, 540⟩, ⟨0, 600⟩, Kinds.new [[['a']]]⟩]⟩) ∧
    (sorted_logs ⟨[⟨⟨1, 0⟩, ⟨1, 60⟩, Kinds.new [[['b']]]⟩,
          ⟨⟨0, 540⟩, ⟨0, 600⟩, Kinds.new [[['a']]]⟩]⟩).Perm
      [⟨⟨1, 0⟩, ⟨1, 60⟩, Kinds.new [[['b']]]⟩,
        ⟨⟨0, 540⟩, ⟨0, 600⟩, Kinds.new [[['a']]]⟩] :=
  claim_C8 ⟨[⟨⟨1, 0⟩, ⟨1, 60⟩, Kinds.new [[['b']]]⟩,
    ⟨⟨0, 540⟩, ⟨0, 600⟩, Kinds.new [[['a']]]⟩]⟩
